import Mathlib

/-!
# Framing state machine and bit timing of `demod.c`

A shallow embedding of `demodBit`, `demodSample`, `demodInit` and of the
sample-index arithmetic of the read loop of `main` (src/demod.c), followed by
theorems about preamble detection, Manchester decoding, packet delivery and
bit timing.

Modelling conventions.

* The `int` counters of the framing machine (`demodBit`) are mathematical
  integers: they stay within small bounds on every context reachable from
  `demodInit` (see `Inv`), so no signed overflow occurs there.
* The two `int` counters of the sample clock, `sampleNum` and `sampleAt`,
  grow with the number of samples fed: their additions are reduced to 32
  bits in two's complement (`wrapInt`), and the conversion of a `double` to
  `int` is exact only inside the range of `int` (`alignSampleAt`).
* The `uint8_t` accumulator `byte` is a `Nat` reduced modulo 256 at every
  assignment.
* `handlePacket(demodCtx->packet)` is an external effect: `demodBit` returns
  the ten bytes handed to it, when it is called.
* The two floating-point running averages of `demodSample` are not modelled:
  the result of the comparison `avgSample > midPoint` is an input of
  `demodSample`.
-/

namespace Demod

/-- The fields of `DemodContext` (src/demod.c:96-117), without the two
`runningAvgContext` members. -/
structure DemodContext where
  state : Int
  preambleGood : Int
  lastDemodBit : Int
  ending : Int
  minPreamble : Int
  manchPos : Int
  bitpos : Int
  byte : Nat
  bytePos : Int
  packet : List Nat
  lastBit : Int
  sampleAt : Int
  sampleNum : Int
  samplesPerBit : Int
deriving DecidableEq

/-- The two statements `byte <<= 1; byte |= bit;` on a `uint8_t`
(src/demod.c:186-187): each assignment truncates to eight bits, and the low
eight bits of `x | bit` are the bitwise or of the low eight bits of both. -/
def shiftOr (byte : Nat) (bit : Int) : Nat :=
  ((byte * 2) % 256) ||| (bit % 256).toNat

/-- `demodBit` (src/demod.c:119-214). The second component is the buffer
passed to `handlePacket`, when the call is made. `manchPos & 1` is the parity
of `manchPos`, and `sizeof(demodCtx->packet)` is 10. The store
`packet[bytePos++] = byte` is modelled for an index inside the buffer, which
is where every context reachable from `demodInit` has it (`Inv`); outside the
buffer the C store is undefined and the model leaves the buffer as it is (or
writes index 0 for a negative index). -/
def demodBit (c : DemodContext) (bit : Int) : DemodContext × Option (List Nat) :=
  let r : DemodContext × Option (List Nat) :=
    if c.state = 0 then
      let c1 := if c.lastDemodBit ≠ bit then { c with preambleGood := c.preambleGood + 1 }
                else { c with preambleGood := 0 }
      if c1.preambleGood ≥ c1.minPreamble then
        ({ c1 with state := 1, preambleGood := 0, ending := 0 }, none)
      else (c1, none)
    else if c.state = 1 then
      if bit = 0 then
        let c1 := { c with ending := c.ending + 1 }
        if c1.ending = 4 then
          ({ c1 with ending := 0, manchPos := 0, byte := 0, bitpos := 0, bytePos := 0,
                     state := 2 }, none)
        else (c1, none)
      else
        let c1 := { c with ending := 0 }
        if c1.ending > 1 then ({ c1 with ending := 0, state := 0 }, none)
        else (c1, none)
    else if c.state = 2 then
      let r2 : DemodContext × Option (List Nat) :=
        if c.manchPos % 2 ≠ 0 then
          if bit = c.lastDemodBit then ({ c with state := 0, preambleGood := 0 }, none)
          else (c, none)
        else
          let c1 := { c with byte := shiftOr c.byte bit }
          let c2 := { c1 with bitpos := c1.bitpos + 1 }
          if c2.bitpos = 8 then
            let c3 := { c2 with packet := c2.packet.set c2.bytePos.toNat c2.byte,
                                bytePos := c2.bytePos + 1 }
            let c4 := { c3 with byte := 0, bitpos := 0 }
            if c4.bytePos = 10 then
              ({ c4 with preambleGood := 0, state := 0 }, some c4.packet)
            else (c4, none)
          else (c2, none)
      ({ r2.1 with manchPos := r2.1.manchPos + 1 }, r2.2)
    else (c, none)
  ({ r.1 with lastDemodBit := bit }, r.2)

/-- `demodInit` (src/demod.c:247-254): every field zeroed, then the two
configuration constants stored. -/
def demodInit (samplesPerBit minPreambleBits : Int) : DemodContext :=
  { state := 0, preambleGood := 0, lastDemodBit := 0, ending := 0,
    minPreamble := minPreambleBits, manchPos := 0, bitpos := 0, byte := 0,
    bytePos := 0, packet := List.replicate 10 0,
    lastBit := 0, sampleAt := 0, sampleNum := 0, samplesPerBit := samplesPerBit }

/-- Successive calls of `demodBit`, one per bit; the second component lists
the packets handed to `handlePacket`, oldest first. -/
def demodBits : DemodContext → List Int → DemodContext × List (List Nat)
  | c, [] => (c, [])
  | c, b :: bs =>
    let r := demodBit c b
    let s := demodBits r.1 bs
    (s.1, r.2.toList ++ s.2)

/-- `sizeof(uint16_t)`. -/
def sizeofUint16 : Nat := 2

/-- `sizeof(ComplexSample)`: a packed pair of 4-byte floats
(src/demod.c:49-53). -/
def sizeofComplexSample : Nat := 8

/-- The index into the `uint16_t` buffer `buf` at which the loop of `main`
reads its `i`-th sample in bypass mode (src/demod.c:417):
`i / sizeof(uint16_t) * sizeof(ComplexSample)`. -/
def bypassIndex (i : Nat) : Nat :=
  i / sizeofUint16 * sizeofComplexSample

/-- The number of loop iterations for a block of `n` bytes in bypass mode
(src/demod.c:406): `n / sizeof(ComplexSample)`. -/
def bypassCount (n : Nat) : Nat :=
  n / sizeofComplexSample

/-! ## Test signals -/

/-- Alternating bits: `n` bits beginning with `b`, each the complement of
the one before. -/
def altBits : Int → Nat → List Int
  | _, 0 => []
  | b, n + 1 => b :: altBits (1 - b) n

/-- The eight bits of a byte, most significant first. -/
def byteBits (b : Nat) : List Int :=
  [(b / 128 % 2 : Nat), (b / 64 % 2 : Nat), (b / 32 % 2 : Nat), (b / 16 % 2 : Nat),
   (b / 8 % 2 : Nat), (b / 4 % 2 : Nat), (b / 2 % 2 : Nat), (b % 2 : Nat)]

/-- The data bits of a payload: each byte most significant bit first. -/
def payloadBits (p : List Nat) : List Int :=
  p.flatMap byteBits

/-- Manchester encoding: each data bit `b` is sent as `b` followed by its
complement. -/
def manchester : List Int → List Int
  | [] => []
  | b :: bs => b :: (1 - b) :: manchester bs

/-- A payload of the packet size: ten bytes. -/
def IsPayload (p : List Nat) : Prop :=
  p.length = 10 ∧ ∀ b ∈ p, b < 256

/-- A well-formed frame: `L` alternating bits beginning with 1, four 0 bits,
the Manchester half-bits of the payload. -/
def frame (L : Nat) (p : List Nat) : List Int :=
  altBits 1 L ++ [0, 0, 0, 0] ++ manchester (payloadBits p)

/-- The last of `n` alternating bits beginning with `b`, for `n ≥ 1`. -/
def altLast (b : Int) (n : Nat) : Int :=
  if n % 2 = 1 then b else 1 - b

/-- A Manchester stream whose pair `k` is corrupted: the second half of the
pair is replaced by a copy of its first half. -/
def corruptPair (k : Nat) (halfBits : List Int) : List Int :=
  halfBits.set (2 * k + 1) (halfBits.getD (2 * k) 0)

/-- Not receiving, as the machine is between the pairs of a Manchester
stream it does not decode: state 0 with the transition counter below the
minimum, or state 1 with a zero-run counter of at most 1. -/
def Resting (c : DemodContext) : Prop :=
  (c.state = 0 ∧ 0 ≤ c.preambleGood ∧ c.preambleGood < c.minPreamble) ∨
  (c.state = 1 ∧ 0 ≤ c.ending ∧ c.ending ≤ 1)

/-- A frame for `p` whose Manchester pair `k` is corrupted: `m` alternating
bits beginning with 1, four 0 bits, the Manchester half-bits of the payload
with the second half of pair `k` replaced by a copy of its first half. -/
def corruptFrame (m k : Nat) (p : List Nat) : List Int :=
  altBits 1 m ++ [0, 0, 0, 0] ++ corruptPair k (manchester (payloadBits p))

/-- The bit sequence contains a run of `m` consecutive bits each differing
from the bit before it, the bit before the first one being 0. -/
def HasRun (m : Nat) (bits : List Int) : Prop :=
  ∃ pre run post, bits = pre ++ run ++ post ∧ run.length = m ∧
    List.Chain (fun a b => a ≠ b) ((0 :: pre).getLast (List.cons_ne_nil 0 pre)) run

/-- The bounds kept by every context reachable from `demodInit`: the state
is one of 0, 1, 2 and every counter of the framing machine is non-negative
and small; in state 2 the fill count is below the packet size and the
Manchester position counts the half-bits consumed since state 2 was
entered. -/
def Inv (c : DemodContext) : Prop :=
  (c.state = 0 ∨ c.state = 1 ∨ c.state = 2) ∧
  (0 ≤ c.preambleGood ∧ (c.preambleGood = 0 ∨ c.preambleGood < c.minPreamble)) ∧
  (0 ≤ c.ending ∧ c.ending ≤ 3) ∧
  (0 ≤ c.manchPos ∧ c.manchPos ≤ 159) ∧
  (0 ≤ c.bitpos ∧ c.bitpos ≤ 7) ∧
  c.byte < 256 ∧
  (0 ≤ c.bytePos ∧ c.bytePos ≤ 10) ∧
  c.packet.length = 10 ∧
  (c.state = 2 → c.bytePos < 10 ∧
    2 * (8 * c.bytePos + c.bitpos) = c.manchPos + c.manchPos % 2)

/-- The calls of `demodBit` expected for bits held for `P` samples each from
sample `s` on: one per bit, in the middle of its period, that is, bit `k` at
sample `s + k * P + P / 2`. -/
def expectedCalls (P : Nat) : Nat → List Int → List (Nat × Int)
  | _, [] => []
  | s, b :: bs => (s + P / 2, b) :: expectedCalls P (s + P) bs

theorem demodBits_append (c : DemodContext) (xs ys : List Int) :
    demodBits c (xs ++ ys) =
      ((demodBits (demodBits c xs).1 ys).1,
        (demodBits c xs).2 ++ (demodBits (demodBits c xs).1 ys).2) := by
  induction xs generalizing c with
  | nil => simp [demodBits]
  | cons x xs ih => simp [demodBits, ih, List.append_assoc]

theorem demodBits_cons (c : DemodContext) (x : Int) (xs : List Int) :
    demodBits c (x :: xs) =
      ((demodBits (demodBit c x).1 xs).1,
        (demodBit c x).2.toList ++ (demodBits (demodBit c x).1 xs).2) := rfl

theorem demodBits_nil (c : DemodContext) : demodBits c [] = (c, []) := rfl

theorem demodBit_minPreamble (c : DemodContext) (x : Int) :
    (demodBit c x).1.minPreamble = c.minPreamble := by
  simp only [demodBit]
  split_ifs <;> rfl

theorem demodBits_minPreamble (c : DemodContext) (xs : List Int) :
    (demodBits c xs).1.minPreamble = c.minPreamble := by
  induction xs generalizing c with
  | nil => rfl
  | cons x xs ih => simp [demodBits, ih, demodBit_minPreamble]

theorem demodBit_packet_length (c : DemodContext) (x : Int) :
    (demodBit c x).1.packet.length = c.packet.length := by
  simp only [demodBit]
  split_ifs <;> simp

theorem demodBits_packet_length (c : DemodContext) (xs : List Int) :
    (demodBits c xs).1.packet.length = c.packet.length := by
  induction xs generalizing c with
  | nil => rfl
  | cons x xs ih => simp [demodBits, ih, demodBit_packet_length]

theorem one_sub_ne (x : Int) : (1 - x = x) ↔ False := by
  constructor
  · intro h; omega
  · intro h; exact h.elim

/-! ## Steps of the three states -/

/-- A step in state 0 hands nothing to `handlePacket`. -/
theorem seek_step_output (c : DemodContext) (x : Int) (hs : c.state = 0) :
    (demodBit c x).2 = none := by
  simp only [demodBit, hs]
  split_ifs <;> rfl

/-- A step in state 1 hands nothing to `handlePacket`. -/
theorem ending_step_output (c : DemodContext) (x : Int) (hs : c.state = 1) :
    (demodBit c x).2 = none := by
  simp only [demodBit, hs]
  split_ifs <;> rfl

theorem seek_step_reset (c : DemodContext) (x : Int) (hs : c.state = 0)
    (hx : c.lastDemodBit = x) (hm : 0 < c.minPreamble) :
    demodBit c x = ({ c with preambleGood := 0, lastDemodBit := x }, none) := by
  have : ¬ (c.minPreamble ≤ 0) := by omega
  simp [demodBit, hs, hx, this]

theorem seek_step_count (c : DemodContext) (x : Int) (hs : c.state = 0)
    (hx : c.lastDemodBit ≠ x) (hm : c.preambleGood + 1 < c.minPreamble) :
    demodBit c x =
      ({ c with preambleGood := c.preambleGood + 1, lastDemodBit := x }, none) := by
  have : ¬ (c.minPreamble ≤ c.preambleGood + 1) := by omega
  simp [demodBit, hs, hx, this]

theorem seek_step_found (c : DemodContext) (x : Int) (hs : c.state = 0)
    (hx : c.lastDemodBit ≠ x) (hm : c.minPreamble ≤ c.preambleGood + 1) :
    demodBit c x =
      ({ c with state := 1, preambleGood := 0, ending := 0, lastDemodBit := x }, none) := by
  simp [demodBit, hs, hx, hm]

theorem ending_step_one (c : DemodContext) (x : Int) (hs : c.state = 1) (hx : x ≠ 0) :
    demodBit c x = ({ c with ending := 0, lastDemodBit := x }, none) := by
  simp [demodBit, hs, hx]

theorem ending_step_zero (c : DemodContext) (hs : c.state = 1) (he : c.ending + 1 ≠ 4) :
    demodBit c 0 = ({ c with ending := c.ending + 1, lastDemodBit := 0 }, none) := by
  simp [demodBit, hs, he]

theorem ending_step_enter (c : DemodContext) (hs : c.state = 1) (he : c.ending + 1 = 4) :
    demodBit c 0 =
      ({ c with ending := 0, manchPos := 0, byte := 0, bitpos := 0, bytePos := 0,
                state := 2, lastDemodBit := 0 }, none) := by
  simp [demodBit, hs, he]

theorem data_step (c : DemodContext) (x : Int) (hs : c.state = 2)
    (hp : c.manchPos % 2 = 0) (hb : c.bitpos + 1 ≠ 8) :
    demodBit c x = ({ c with byte := shiftOr c.byte x, bitpos := c.bitpos + 1,
                             manchPos := c.manchPos + 1, lastDemodBit := x }, none) := by
  simp [demodBit, hs, hp, hb]

theorem byte_step (c : DemodContext) (x : Int) (hs : c.state = 2)
    (hp : c.manchPos % 2 = 0) (hb : c.bitpos + 1 = 8) (hq : c.bytePos + 1 ≠ 10) :
    demodBit c x =
      ({ c with byte := 0, bitpos := 0,
                packet := c.packet.set c.bytePos.toNat (shiftOr c.byte x),
                bytePos := c.bytePos + 1,
                manchPos := c.manchPos + 1, lastDemodBit := x }, none) := by
  simp [demodBit, hs, hp, hb, hq]

theorem packet_step (c : DemodContext) (x : Int) (hs : c.state = 2)
    (hp : c.manchPos % 2 = 0) (hb : c.bitpos + 1 = 8) (hq : c.bytePos + 1 = 10) :
    demodBit c x =
      ({ c with byte := 0, bitpos := 0,
                packet := c.packet.set c.bytePos.toNat (shiftOr c.byte x),
                bytePos := c.bytePos + 1, preambleGood := 0, state := 0,
                manchPos := c.manchPos + 1, lastDemodBit := x },
        some (c.packet.set c.bytePos.toNat (shiftOr c.byte x))) := by
  simp [demodBit, hs, hp, hb, hq]

theorem check_step (c : DemodContext) (x : Int) (hs : c.state = 2)
    (hp : c.manchPos % 2 = 1) (hx : x ≠ c.lastDemodBit) :
    demodBit c x = ({ c with manchPos := c.manchPos + 1, lastDemodBit := x }, none) := by
  simp [demodBit, hs, hp, hx]

theorem violation_step (c : DemodContext) (x : Int) (hs : c.state = 2)
    (hp : c.manchPos % 2 = 1) (hx : x = c.lastDemodBit) :
    demodBit c x =
      ({ c with state := 0, preambleGood := 0, manchPos := c.manchPos + 1,
                lastDemodBit := x }, none) := by
  simp [demodBit, hs, hp, hx]

/-- A well-formed Manchester pair that does not close a byte. -/
theorem pair_step (c : DemodContext) (x : Int) (rest : List Int) (hs : c.state = 2)
    (hp : c.manchPos % 2 = 0) (hb : c.bitpos + 1 ≠ 8) :
    demodBits c (x :: (1 - x) :: rest) =
      demodBits { c with byte := shiftOr c.byte x, bitpos := c.bitpos + 1,
                         manchPos := c.manchPos + 2, lastDemodBit := 1 - x } rest := by
  have h1 : (c.manchPos + 1) % 2 = 1 := by omega
  have h2 : c.manchPos + 1 + 1 = c.manchPos + 2 := by omega
  simp [demodBits, data_step c x hs hp hb, check_step, hs, h1, one_sub_ne, h2]

/-- A well-formed Manchester pair that closes a byte but not the packet. -/
theorem pair_step_byte (c : DemodContext) (x : Int) (rest : List Int) (hs : c.state = 2)
    (hp : c.manchPos % 2 = 0) (hb : c.bitpos + 1 = 8) (hq : c.bytePos + 1 ≠ 10) :
    demodBits c (x :: (1 - x) :: rest) =
      demodBits { c with byte := 0, bitpos := 0,
                         packet := c.packet.set c.bytePos.toNat (shiftOr c.byte x),
                         bytePos := c.bytePos + 1,
                         manchPos := c.manchPos + 2, lastDemodBit := 1 - x } rest := by
  have h1 : (c.manchPos + 1) % 2 = 1 := by omega
  have h2 : c.manchPos + 1 + 1 = c.manchPos + 2 := by omega
  simp [demodBits, byte_step c x hs hp hb hq, check_step, hs, h1, one_sub_ne, h2]

/-- The accumulator after the eight bits of a byte, shifted in most
significant bit first, is the byte. -/
theorem shiftOr_byteBits : ∀ b < 256,
    shiftOr (shiftOr (shiftOr (shiftOr (shiftOr (shiftOr (shiftOr (shiftOr 0
      (b / 128 % 2 : Nat)) (b / 64 % 2 : Nat)) (b / 32 % 2 : Nat)) (b / 16 % 2 : Nat))
      (b / 8 % 2 : Nat)) (b / 4 % 2 : Nat)) (b / 2 % 2 : Nat)) (b % 2 : Nat) = b := by
  set_option maxRecDepth 100000 in decide

/-- The sixteen half-bits of a byte that is not the tenth. -/
theorem recv_byte (c : DemodContext) (b : Nat) (hb : b < 256) (hs : c.state = 2)
    (hp : c.manchPos % 2 = 0) (hbit : c.bitpos = 0) (hbyte : c.byte = 0)
    (hq : c.bytePos + 1 ≠ 10) (rest : List Int) :
    demodBits c (manchester (byteBits b) ++ rest) =
      demodBits { c with packet := c.packet.set c.bytePos.toNat b,
                         bytePos := c.bytePos + 1,
                         manchPos := c.manchPos + 16,
                         lastDemodBit := 1 - (b % 2 : Nat) } rest := by
  have e := shiftOr_byteBits b hb
  simp only [manchester, byteBits, List.cons_append, List.nil_append]
  rw [pair_step _ _ _ hs hp (by omega)]
  rw [pair_step _ _ _ (by simp [hs]) (by simp; omega) (by simp; omega)]
  rw [pair_step _ _ _ (by simp [hs]) (by simp; omega) (by simp; omega)]
  rw [pair_step _ _ _ (by simp [hs]) (by simp; omega) (by simp; omega)]
  rw [pair_step _ _ _ (by simp [hs]) (by simp; omega) (by simp; omega)]
  rw [pair_step _ _ _ (by simp [hs]) (by simp; omega) (by simp; omega)]
  rw [pair_step _ _ _ (by simp [hs]) (by simp; omega) (by simp; omega)]
  rw [pair_step_byte _ _ _ (by simp [hs]) (by simp; omega) (by simp; omega)
    (by simpa using hq)]
  simp only [hbyte, e]
  rw [show c.manchPos + 2 + 2 + 2 + 2 + 2 + 2 + 2 + 2 = c.manchPos + 16 by omega, hbit]

/-- The first fifteen half-bits of the tenth byte: the packet is handed to
`handlePacket` on the fifteenth. -/
theorem recv_last_byte (c : DemodContext) (b : Nat) (hb : b < 256) (hs : c.state = 2)
    (hp : c.manchPos % 2 = 0) (hbit : c.bitpos = 0) (hbyte : c.byte = 0)
    (hq : c.bytePos = 9) (rest : List Int) :
    demodBits c ((manchester (byteBits b)).dropLast ++ rest) =
      (let c' : DemodContext :=
        { c with packet := c.packet.set 9 b, bytePos := 10, preambleGood := 0, state := 0,
                 manchPos := c.manchPos + 15, lastDemodBit := (b % 2 : Nat) }
       ((demodBits c' rest).1, c.packet.set 9 b :: (demodBits c' rest).2)) := by
  have e := shiftOr_byteBits b hb
  simp only [manchester, byteBits, List.dropLast, List.cons_append, List.nil_append]
  rw [pair_step _ _ _ hs hp (by omega)]
  rw [pair_step _ _ _ (by simp [hs]) (by simp; omega) (by simp; omega)]
  rw [pair_step _ _ _ (by simp [hs]) (by simp; omega) (by simp; omega)]
  rw [pair_step _ _ _ (by simp [hs]) (by simp; omega) (by simp; omega)]
  rw [pair_step _ _ _ (by simp [hs]) (by simp; omega) (by simp; omega)]
  rw [pair_step _ _ _ (by simp [hs]) (by simp; omega) (by simp; omega)]
  rw [pair_step _ _ _ (by simp [hs]) (by simp; omega) (by simp; omega)]
  rw [demodBits_cons, packet_step _ _ (by simp [hs]) (by simp; omega) (by simp; omega)
    (by simp [hq])]
  simp only [hbyte, e, hq, Option.toList, List.singleton_append]
  rw [show c.manchPos + 2 + 2 + 2 + 2 + 2 + 2 + 2 + 1 = c.manchPos + 15 by omega]
  simp [hbit]

/-! ## Alternating bits -/

theorem altBits_length (b : Int) (n : Nat) : (altBits b n).length = n := by
  induction n generalizing b with
  | zero => rfl
  | succ n ih => simp [altBits, ih]

theorem altBits_take (b : Int) (n k : Nat) (h : k ≤ n) :
    (altBits b n).take k = altBits b k := by
  induction k generalizing b n with
  | zero => simp [altBits]
  | succ k ih =>
    obtain ⟨n', rfl⟩ : ∃ n', n = n' + 1 := ⟨n - 1, by omega⟩
    simp [altBits, ih (1 - b) n' (by omega)]

/-- Alternating bits met in state 1 never complete a run of four zeros, and
a final 1 leaves the zero-run counter at 0. -/
theorem ending_alt (n : Nat) : ∀ (c : DemodContext) (b : Int), (b = 0 ∨ b = 1) →
    c.state = 1 → 0 ≤ c.ending → c.ending ≤ 3 → (b = 0 → c.ending ≤ 2) →
    (demodBits c (altBits b n)).2 = [] ∧ (demodBits c (altBits b n)).1.state = 1 ∧
    0 ≤ (demodBits c (altBits b n)).1.ending ∧ (demodBits c (altBits b n)).1.ending ≤ 3 ∧
    (((n = 0 ∧ c.ending = 0) ∨ (1 ≤ n ∧ altLast b n = 1)) →
      (demodBits c (altBits b n)).1.ending = 0) := by
  induction n with
  | zero =>
    intro c b _ hs h0 h3 _
    refine ⟨rfl, hs, h0, h3, ?_⟩
    rintro (⟨_, h⟩ | ⟨h, _⟩)
    · exact h
    · omega
  | succ n ih =>
    intro c b hb hs h0 h3 h2
    rcases hb with rfl | rfl
    · have hstep := ending_step_zero c hs (by have := h2 rfl; omega)
      have := ih { c with ending := c.ending + 1, lastDemodBit := 0 } 1 (Or.inr rfl)
        hs (by simp; omega) (by have := h2 rfl; simp; omega) (by intro h; omega)
      obtain ⟨i1, i2, i3, i4, i5⟩ := this
      simp only [altBits, demodBits_cons, hstep, sub_zero]
      refine ⟨by simp [i1], i2, i3, i4, ?_⟩
      rintro (⟨h, _⟩ | ⟨_, h⟩)
      · omega
      · apply i5
        right
        unfold altLast at h ⊢
        split_ifs at h ⊢ <;> omega
    · have hstep := ending_step_one c 1 hs (by decide)
      have := ih { c with ending := 0, lastDemodBit := 1 } 0 (Or.inl rfl)
        hs (by simp) (by simp) (by intro _; simp)
      obtain ⟨i1, i2, i3, i4, i5⟩ := this
      simp only [altBits, demodBits_cons, hstep, sub_self]
      refine ⟨by simp [i1], i2, i3, i4, ?_⟩
      rintro (⟨h, _⟩ | ⟨_, h⟩)
      · omega
      · apply i5
        rcases Nat.eq_zero_or_pos n with hn | hn
        · left; exact ⟨hn, rfl⟩
        · right
          unfold altLast at h ⊢
          split_ifs at h ⊢ <;> omega

/-- Fewer alternating bits than the counter still needs leave the machine in
state 0. -/
theorem seek_alt_short (n : Nat) : ∀ (c : DemodContext) (b : Int),
    c.state = 0 → c.lastDemodBit ≠ b → c.preambleGood + n < c.minPreamble →
    (demodBits c (altBits b n)).2 = [] ∧ (demodBits c (altBits b n)).1.state = 0 ∧
    (demodBits c (altBits b n)).1.preambleGood = c.preambleGood + n := by
  induction n with
  | zero => intro c b hs _ _; exact ⟨rfl, hs, by simp [altBits, demodBits_nil]⟩
  | succ n ih =>
    intro c b hs hx hlt
    have hstep := seek_step_count c b hs hx (by push_cast at hlt; omega)
    obtain ⟨i1, i2, i3⟩ := ih { c with preambleGood := c.preambleGood + 1, lastDemodBit := b }
      (1 - b) hs (by simp; omega) (by push_cast at hlt; simp; omega)
    simp only [altBits, demodBits_cons, hstep]
    refine ⟨by simp [i1], i2, ?_⟩
    rw [i3]; push_cast; ring

/-- Alternating bits met in state 0, at least as many as the counter still
needs: the machine ends in state 1, and the zero-run counter is 0 when the
bits are exactly as many as needed or the last of them is 1. -/
theorem seek_alt (n : Nat) : ∀ (c : DemodContext) (b : Int), (b = 0 ∨ b = 1) →
    c.state = 0 → c.lastDemodBit ≠ b → c.preambleGood < c.minPreamble →
    c.minPreamble ≤ c.preambleGood + n →
    (demodBits c (altBits b n)).2 = [] ∧ (demodBits c (altBits b n)).1.state = 1 ∧
    0 ≤ (demodBits c (altBits b n)).1.ending ∧ (demodBits c (altBits b n)).1.ending ≤ 3 ∧
    ((c.minPreamble = c.preambleGood + n ∨ altLast b n = 1) →
      (demodBits c (altBits b n)).1.ending = 0) := by
  induction n with
  | zero => intro c b _ _ _ h1 h2; simp at h2; omega
  | succ n ih =>
    intro c b hb hs hx hlt hge
    have hb' : 1 - b = 0 ∨ 1 - b = 1 := by rcases hb with rfl | rfl <;> simp
    by_cases hf : c.minPreamble ≤ c.preambleGood + 1
    · have hstep := seek_step_found c b hs hx hf
      obtain ⟨i1, i2, i3, i4, i5⟩ :=
        ending_alt n { c with state := 1, preambleGood := 0, ending := 0, lastDemodBit := b }
          (1 - b) hb' rfl (by simp) (by simp) (by intro _; simp)
      simp only [altBits, demodBits_cons, hstep]
      refine ⟨by simp [i1], i2, i3, i4, ?_⟩
      intro h
      apply i5
      rcases Nat.eq_zero_or_pos n with hn | hn
      · left; exact ⟨hn, rfl⟩
      · right
        refine ⟨hn, ?_⟩
        rcases h with h | h
        · push_cast at h; omega
        · unfold altLast at h ⊢
          split_ifs at h ⊢ <;> omega
    · have hstep := seek_step_count c b hs hx (by omega)
      obtain ⟨i1, i2, i3, i4, i5⟩ :=
        ih { c with preambleGood := c.preambleGood + 1, lastDemodBit := b } (1 - b) hb'
          hs (by simp; omega) (by simp; omega) (by push_cast at hge; simp; omega)
      simp only [altBits, demodBits_cons, hstep]
      refine ⟨by simp [i1], i2, i3, i4, ?_⟩
      intro h
      apply i5
      rcases h with h | h
      · left; push_cast at h; simp; omega
      · right
        unfold altLast at h ⊢
        split_ifs at h ⊢ <;> omega

/-! ## Manchester streams -/

theorem manchester_append (xs ys : List Int) :
    manchester (xs ++ ys) = manchester xs ++ manchester ys := by
  induction xs with
  | nil => rfl
  | cons x xs ih => simp [manchester, ih]

theorem manchester_length (xs : List Int) : (manchester xs).length = 2 * xs.length := by
  induction xs with
  | nil => rfl
  | cons x xs ih => simp [manchester, ih]; omega

theorem payloadBits_append (p q : List Nat) :
    payloadBits (p ++ q) = payloadBits p ++ payloadBits q := by
  simp [payloadBits]

theorem payloadBits_length (p : List Nat) : (payloadBits p).length = 8 * p.length := by
  induction p with
  | nil => rfl
  | cons b p ih =>
    have : payloadBits (b :: p) = byteBits b ++ payloadBits p := by simp [payloadBits]
    rw [this, List.length_append, ih]; simp [byteBits]; omega

theorem payloadBits_isBit (p : List Nat) : ∀ x ∈ payloadBits p, x = 0 ∨ x = 1 := by
  intro x hx
  simp only [payloadBits, List.mem_flatMap, byteBits] at hx
  obtain ⟨b, _, hb⟩ := hx
  simp only [List.mem_cons, List.mem_singleton, List.not_mem_nil, or_false] at hb
  rcases hb with h | h | h | h | h | h | h | h <;> subst h <;> omega

/-- A payload is nine bytes followed by a tenth. -/
theorem payload_split (p : List Nat) (hp : IsPayload p) :
    ∃ q b, p = q ++ [b] ∧ q.length = 9 ∧ b < 256 ∧ ∀ x ∈ q, x < 256 := by
  obtain ⟨hl, hb⟩ := hp
  have hne : p ≠ [] := by intro h; simp [h] at hl
  refine ⟨p.dropLast, p.getLast hne, (List.dropLast_append_getLast hne).symm, ?_, ?_, ?_⟩
  · simp [hl]
  · exact hb _ (List.getLast_mem hne)
  · intro x hx; exact hb x (List.dropLast_subset p hx)

theorem take_set_succ (l : List Nat) (j : Nat) (b : Nat) (h : j < l.length) :
    (l.set j b).take (j + 1) = l.take j ++ [b] := by
  induction l generalizing j with
  | nil => simp at h
  | cons a l ih =>
    cases j with
    | zero => simp
    | succ j => simp at h; simp [ih j h]

/-! ## From the end of the preamble to the delivery -/

/-- Four 0 bits met in state 1 with a clear zero-run counter enter state 2 on
the fourth. -/
theorem enter_recv (c : DemodContext) (hs : c.state = 1) (he : c.ending = 0)
    (rest : List Int) :
    demodBits c (0 :: 0 :: 0 :: 0 :: rest) =
      demodBits { c with ending := 0, manchPos := 0, byte := 0, bitpos := 0, bytePos := 0,
                         state := 2, lastDemodBit := 0 } rest := by
  rw [demodBits_cons, ending_step_zero c hs (by omega)]
  rw [demodBits_cons, ending_step_zero _ (by simp [hs]) (by simp; omega)]
  rw [demodBits_cons, ending_step_zero _ (by simp [hs]) (by simp; omega)]
  rw [demodBits_cons, ending_step_enter _ (by simp [hs]) (by simp; omega)]
  simp

/-- The bytes of a payload before the tenth are stored in order. -/
theorem recv_bytes (q : List Nat) : ∀ (c : DemodContext) (j : Nat),
    (∀ b ∈ q, b < 256) → c.state = 2 → c.manchPos % 2 = 0 → c.bitpos = 0 → c.byte = 0 →
    c.bytePos = j → j + q.length ≤ 9 → c.packet.length = 10 →
    ∃ c' : DemodContext,
      (∀ rest, demodBits c (manchester (payloadBits q) ++ rest) = demodBits c' rest) ∧
      c'.state = 2 ∧ c'.manchPos % 2 = 0 ∧ c'.bitpos = 0 ∧ c'.byte = 0 ∧
      c'.bytePos = (j + q.length : Nat) ∧ c'.packet.length = 10 ∧
      c'.packet.take (j + q.length) = c.packet.take j ++ q := by
  induction q with
  | nil =>
    intro c j _ hs hp hbit hbyte hj _ hl
    exact ⟨c, fun rest => by simp [payloadBits, manchester], hs, hp, hbit, hbyte,
      by simpa using hj, hl, by simp⟩
  | cons b q ih =>
    intro c j hq hs hp hbit hbyte hj hle hl
    simp only [List.length_cons] at hle
    have hb : b < 256 := hq b (List.mem_cons_self _ _)
    obtain ⟨c', h1, h2, h3, h4, h5, h6, h7, h8⟩ :=
      ih { c with packet := c.packet.set c.bytePos.toNat b, bytePos := c.bytePos + 1,
                  manchPos := c.manchPos + 16, lastDemodBit := 1 - (b % 2 : Nat) } (j + 1)
        (fun x hx => hq x (List.mem_cons_of_mem _ hx)) hs (by simp; omega) hbit hbyte
        (by simp [hj]) (by omega) (by simp [hl])
    refine ⟨c', ?_, h2, h3, h4, h5, ?_, h7, ?_⟩
    · intro rest
      have : payloadBits (b :: q) = byteBits b ++ payloadBits q := by simp [payloadBits]
      rw [this, manchester_append, List.append_assoc,
        recv_byte c b hb hs hp hbit hbyte (by omega), h1]
    · rw [h6]; simp only [List.length_cons]; congr 1; omega
    · have e : j + (b :: q).length = j + 1 + q.length := by simp; omega
      rw [e, h8]
      simp only [hj, Int.toNat_ofNat]
      rw [take_set_succ _ _ _ (by omega)]
      simp

/-- From the end of the preamble on: four 0 bits and the half-bits of a
payload up to the first half of the last pair deliver the payload, once, and
leave the machine in state 0. -/
theorem frame_body (c : DemodContext) (q : List Nat) (b : Nat) (hs : c.state = 1)
    (he : c.ending = 0) (hl : c.packet.length = 10) (hq : ∀ x ∈ q, x < 256)
    (hql : q.length = 9) (hb : b < 256) :
    ∃ c' : DemodContext, c'.state = 0 ∧ c'.preambleGood = 0 ∧
      c'.lastDemodBit = (b % 2 : Nat) ∧
      ∀ rest, demodBits c (0 :: 0 :: 0 :: 0 :: (manchester (payloadBits q) ++
          ((manchester (byteBits b)).dropLast ++ rest))) =
        ((demodBits c' rest).1, (q ++ [b]) :: (demodBits c' rest).2) := by
  obtain ⟨c1, h1, h2, h3, h4, h5, h6, h7, h8⟩ :=
    recv_bytes q { c with ending := 0, manchPos := 0, byte := 0, bitpos := 0, bytePos := 0,
                          state := 2, lastDemodBit := 0 } 0
      hq rfl (by simp) rfl rfl (by simp) (by omega) (by simp [hl])
  have h6' : c1.bytePos = 9 := by rw [h6, hql]; rfl
  have hpk : c1.packet.set 9 b = q ++ [b] := by
    have e1 : (c1.packet.set 9 b).take (9 + 1) = c1.packet.take 9 ++ [b] :=
      take_set_succ _ _ _ (by omega)
    have e2 : (c1.packet.set 9 b).take (9 + 1) = c1.packet.set 9 b :=
      List.take_of_length_le (by simp [h7])
    rw [← e2, e1]
    have := h8
    simp only [hql, Nat.zero_add, List.take_zero, List.nil_append] at this
    rw [this]
  refine ⟨{ c1 with packet := c1.packet.set 9 b, bytePos := 10, preambleGood := 0,
                    state := 0, manchPos := c1.manchPos + 15,
                    lastDemodBit := (b % 2 : Nat) }, rfl, rfl, rfl, ?_⟩
  intro rest
  rw [enter_recv c hs he, h1, recv_last_byte c1 b hb h2 h3 h4 h5 h6', hpk]

/-- Bits met in state 0 deliver nothing when a single one is fed. -/
theorem seek_single (c : DemodContext) (x : Int) (hs : c.state = 0) :
    (demodBits c [x]).2 = [] := by
  simp [demodBits_cons, demodBits_nil, seek_step_output c x hs]

theorem demodInit_ready (spb : Int) (m L : Nat) (hm : 1 ≤ m) (hL : m ≤ L)
    (h : L = m ∨ L % 2 = 1) :
    (demodBits (demodInit spb m) (altBits 1 L)).2 = [] ∧
    (demodBits (demodInit spb m) (altBits 1 L)).1.state = 1 ∧
    (demodBits (demodInit spb m) (altBits 1 L)).1.ending = 0 ∧
    (demodBits (demodInit spb m) (altBits 1 L)).1.packet.length = 10 := by
  obtain ⟨i1, i2, _, _, i5⟩ := seek_alt L (demodInit spb m) 1 (Or.inr rfl) rfl
    (by simp [demodInit]) (by simp [demodInit]; omega) (by simp [demodInit]; omega)
  refine ⟨i1, i2, i5 ?_, by rw [demodBits_packet_length]; simp [demodInit]⟩
  rcases h with h | h
  · left; simp [demodInit, h]
  · right; simp [altLast, h]


/-! ## Whole frames -/

theorem manchester_byte_last (b : Nat) :
    manchester (byteBits b) =
      (manchester (byteBits b)).dropLast ++ [1 - ((b % 2 : Nat) : Int)] := by
  simp [manchester, byteBits]

theorem frame_split (L : Nat) (q : List Nat) (b : Nat) :
    frame L (q ++ [b]) =
      altBits 1 L ++ (0 :: 0 :: 0 :: 0 :: (manchester (payloadBits q) ++
        ((manchester (byteBits b)).dropLast ++ [1 - ((b % 2 : Nat) : Int)]))) := by
  have e : payloadBits [b] = byteBits b := by simp [payloadBits]
  rw [frame, payloadBits_append, manchester_append, e]
  nth_rewrite 1 [manchester_byte_last b]
  simp

/-- A preamble of `L` alternating bits, with `L` the minimum or odd, four 0
bits and the half-bits of a payload up to the first half of the last pair:
the payload is delivered once and the machine is back in state 0. -/
theorem frame_run (spb : Int) (m L : Nat) (q : List Nat) (b : Nat) (hm : 1 ≤ m)
    (hL : m ≤ L) (h : L = m ∨ L % 2 = 1) (hq : ∀ x ∈ q, x < 256) (hql : q.length = 9)
    (hb : b < 256) :
    ∃ c' : DemodContext, c'.state = 0 ∧ c'.preambleGood = 0 ∧
      c'.lastDemodBit = (b % 2 : Nat) ∧
      ∀ rest, demodBits (demodInit spb m)
          (altBits 1 L ++ (0 :: 0 :: 0 :: 0 :: (manchester (payloadBits q) ++
            ((manchester (byteBits b)).dropLast ++ rest)))) =
        ((demodBits c' rest).1, (q ++ [b]) :: (demodBits c' rest).2) := by
  obtain ⟨i1, i2, i3, i4⟩ := demodInit_ready spb m L hm hL h
  obtain ⟨c', h1, h2, h3, h4⟩ :=
    frame_body (demodBits (demodInit spb m) (altBits 1 L)).1 q b i2 i3 i4 hq hql hb
  refine ⟨c', h1, h2, h3, fun rest => ?_⟩
  rw [demodBits_append, i1, h4 rest]
  simp

/-- C1: for every minimum preamble count m ≥ 1 and every 10-byte payload p,
feeding `demodBit`, from the `demodInit` context, with m alternating bits
beginning with 1, four 0 bits and the 160 Manchester half-bits of p calls
`handlePacket` exactly once, with a buffer equal to p. -/
theorem frame_delivers_payload (spb : Int) (m : Nat) (p : List Nat) (hm : 1 ≤ m)
    (hp : IsPayload p) :
    (demodBits (demodInit spb m) (frame m p)).2 = [p] := by
  obtain ⟨q, b, rfl, hql, hb, hq⟩ := payload_split p hp
  obtain ⟨c', h1, _, _, h4⟩ := frame_run spb m m q b hm le_rfl (Or.inl rfl) hq hql hb
  rw [frame_split, h4, seek_single c' _ h1]

theorem frame_delivers_payload_witness :
    1 ≤ 3 ∧ IsPayload [165, 1, 255, 0, 18, 52, 86, 120, 154, 188] ∧
    (demodBits (demodInit 200 (3 : Nat))
      (frame 3 [165, 1, 255, 0, 18, 52, 86, 120, 154, 188])).2 =
      [[165, 1, 255, 0, 18, 52, 86, 120, 154, 188]] :=
  ⟨by decide, by unfold IsPayload; decide,
    frame_delivers_payload 200 3 _ (by decide) (by unfold IsPayload; decide)⟩


/-- A pair corrupted in a Manchester stream, in terms of the data bits. -/
theorem corruptPair_manchester (xs : List Int) : ∀ (k : Nat) (d : Int) (ys : List Int),
    xs.length = k →
    corruptPair k (manchester (xs ++ d :: ys)) =
      manchester xs ++ d :: d :: manchester ys := by
  induction xs with
  | nil =>
    intro k d ys hk
    subst hk
    simp [corruptPair, manchester]
  | cons x xs ih =>
    intro k d ys hk
    obtain ⟨k', rfl⟩ : ∃ k', k = k' + 1 := ⟨xs.length, by simp at hk; omega⟩
    have := ih k' d ys (by simp at hk; omega)
    simp only [corruptPair] at this ⊢
    have e1 : 2 * (k' + 1) + 1 = (2 * k' + 1) + 1 + 1 := by omega
    have e2 : 2 * (k' + 1) = (2 * k') + 1 + 1 := by omega
    rw [e1, e2]
    simp only [List.cons_append, manchester, List.set_cons_succ, List.getD_cons_succ,
      List.append_eq, this]

/-- The first fourteen half-bits of the tenth byte deliver nothing. -/
theorem recv_last_byte_quiet (c : DemodContext) (b : Nat) (hs : c.state = 2)
    (hp : c.manchPos % 2 = 0) (hbit : c.bitpos = 0) :
    (demodBits c ((manchester (byteBits b)).dropLast.dropLast)).2 = [] := by
  simp only [manchester, byteBits, List.dropLast]
  rw [pair_step _ _ _ hs hp (by omega)]
  rw [pair_step _ _ _ (by simp [hs]) (by simp; omega) (by simp; omega)]
  rw [pair_step _ _ _ (by simp [hs]) (by simp; omega) (by simp; omega)]
  rw [pair_step _ _ _ (by simp [hs]) (by simp; omega) (by simp; omega)]
  rw [pair_step _ _ _ (by simp [hs]) (by simp; omega) (by simp; omega)]
  rw [pair_step _ _ _ (by simp [hs]) (by simp; omega) (by simp; omega)]
  rw [pair_step _ _ _ (by simp [hs]) (by simp; omega) (by simp; omega)]
  rfl

/-- C10: the packet is delivered when the first half of the 80th Manchester
pair is consumed, the 159th bit after state 2 is entered. For every m ≥ 1 and
every 10-byte payload p: the frame without its last two half-bits (fed up to
the end of pair 78) delivers nothing, the frame without its final half-bit
delivers exactly p, and so does the frame whose final half-bit is a copy of
the first half of the last pair (a Manchester violation in pair 79). -/
theorem delivery_before_last_half (spb : Int) (m : Nat) (p : List Nat) (hm : 1 ≤ m)
    (hp : IsPayload p) :
    (demodBits (demodInit spb m) (frame m p).dropLast.dropLast).2 = [] ∧
    (demodBits (demodInit spb m) (frame m p).dropLast).2 = [p] ∧
    (demodBits (demodInit spb m)
      (altBits 1 m ++ [0, 0, 0, 0] ++ corruptPair 79 (manchester (payloadBits p)))).2 = [p] := by
  obtain ⟨q, b, rfl, hql, hb, hq⟩ := payload_split p hp
  obtain ⟨c', h1, _, _, h4⟩ := frame_run spb m m q b hm le_rfl (Or.inl rfl) hq hql hb
  have hd : (frame m (q ++ [b])).dropLast =
      altBits 1 m ++ (0 :: 0 :: 0 :: 0 :: (manchester (payloadBits q) ++
        ((manchester (byteBits b)).dropLast ++ []))) := by
    rw [frame_split]
    simp only [← List.append_assoc, ← List.cons_append, List.dropLast_concat,
      List.append_nil]
  refine ⟨?_, ?_, ?_⟩
  · have hdd : (frame m (q ++ [b])).dropLast.dropLast =
        altBits 1 m ++ (0 :: 0 :: 0 :: 0 :: (manchester (payloadBits q) ++
          ((manchester (byteBits b)).dropLast.dropLast ++ []))) := by
      rw [hd]
      have e : (manchester (byteBits b)).dropLast =
          (manchester (byteBits b)).dropLast.dropLast ++ [((b % 2 : Nat) : Int)] := by
        simp [manchester, byteBits]
      nth_rewrite 1 [e]
      simp only [← List.append_assoc, ← List.cons_append, List.dropLast_concat,
        List.append_nil]
    obtain ⟨i1, i2, i3, i4⟩ := demodInit_ready spb m m hm le_rfl (Or.inl rfl)
    obtain ⟨c1, j1, j2, j3, j4, j5, j6, j7, j8⟩ :=
      recv_bytes q { (demodBits (demodInit spb m) (altBits 1 m)).1 with
          ending := 0, manchPos := 0, byte := 0, bitpos := 0, bytePos := 0,
          state := 2, lastDemodBit := 0 } 0
        hq rfl (by simp) rfl rfl (by simp) (by omega) (by simp [i4])
    rw [hdd, demodBits_append, i1, enter_recv _ i2 i3, j1, List.append_nil,
      recv_last_byte_quiet c1 b j2 j3 j4]
    rfl
  · rw [hd, h4]; rfl
  · have e : payloadBits [b] = byteBits b := by simp [payloadBits]
    have hbits : payloadBits (q ++ [b]) =
        (payloadBits q ++ (byteBits b).dropLast) ++ ((b % 2 : Nat) : Int) :: [] := by
      rw [payloadBits_append, e]; simp [byteBits]
    have hc : corruptPair 79 (manchester (payloadBits (q ++ [b]))) =
        manchester (payloadBits q) ++ ((manchester (byteBits b)).dropLast ++
          [((b % 2 : Nat) : Int)]) := by
      rw [hbits, corruptPair_manchester _ 79 _ _ (by
        rw [List.length_append, payloadBits_length, hql]; simp [byteBits])]
      rw [manchester_append]
      simp [manchester, byteBits]
    rw [hc, List.append_assoc, List.cons_append, List.cons_append, List.cons_append,
      List.cons_append, List.nil_append, h4, seek_single c' _ h1]

theorem delivery_before_last_half_witness :
    (1 ≤ 1 ∧ IsPayload [165, 1, 255, 0, 18, 52, 86, 120, 154, 188]) ∧
    (demodBits (demodInit 200 (1 : Nat))
      (frame 1 [165, 1, 255, 0, 18, 52, 86, 120, 154, 188]).dropLast.dropLast).2 = [] ∧
    (demodBits (demodInit 200 (1 : Nat))
      (frame 1 [165, 1, 255, 0, 18, 52, 86, 120, 154, 188]).dropLast).2 =
      [[165, 1, 255, 0, 18, 52, 86, 120, 154, 188]] ∧
    (demodBits (demodInit 200 (1 : Nat))
      (altBits 1 1 ++ [0, 0, 0, 0] ++ corruptPair 79 (manchester (payloadBits
        [165, 1, 255, 0, 18, 52, 86, 120, 154, 188])))).2 =
      [[165, 1, 255, 0, 18, 52, 86, 120, 154, 188]] :=
  ⟨⟨by decide, by unfold IsPayload; decide⟩,
    delivery_before_last_half 200 1 _ (by decide) (by unfold IsPayload; decide)⟩


/-- Fewer than four 0 bits met in state 1 with a clear zero-run counter leave
the machine in state 1. -/
theorem zeros_state (c : DemodContext) (hs : c.state = 1) (he : c.ending = 0) :
    (demodBits c [0]).1.state = 1 ∧ (demodBits c [0, 0]).1.state = 1 ∧
    (demodBits c [0, 0, 0]).1.state = 1 := by
  refine ⟨?_, ?_, ?_⟩
  · rw [demodBits_cons, ending_step_zero c hs (by omega)]
    simpa [demodBits_nil] using hs
  · rw [demodBits_cons, ending_step_zero c hs (by omega)]
    rw [demodBits_cons, ending_step_zero _ (by simp [hs]) (by simp; omega)]
    simpa [demodBits_nil] using hs
  · rw [demodBits_cons, ending_step_zero c hs (by omega)]
    rw [demodBits_cons, ending_step_zero _ (by simp [hs]) (by simp; omega)]
    rw [demodBits_cons, ending_step_zero _ (by simp [hs]) (by simp; omega)]
    simpa [demodBits_nil] using hs

/-- While alternating bits are fed from the `demodInit` context the machine
is in state 0 or 1. -/
theorem demodInit_alt_state (spb : Int) (m n : Nat) (hm : 1 ≤ m) :
    (demodBits (demodInit spb m) (altBits 1 n)).1.state ≠ 2 := by
  by_cases h : n < m
  · obtain ⟨_, i2, _⟩ := seek_alt_short n (demodInit spb m) 1 rfl (by simp [demodInit])
      (by simp [demodInit]; omega)
    rw [i2]; decide
  · obtain ⟨_, i2, _⟩ := seek_alt n (demodInit spb m) 1 (Or.inr rfl) rfl
      (by simp [demodInit]) (by simp [demodInit]; omega) (by simp [demodInit]; omega)
    rw [i2]; decide

/-- C6, amended: the configured preamble count is a minimum. For every
m ≥ 1, every preamble length L ≥ m that is either m itself or odd (a longer
preamble has to end in a 1 bit) and every 10-byte payload p: L alternating
bits beginning with 1, four 0 bits and the 160 Manchester half-bits of p
deliver exactly one packet, equal to p; the machine is not in state 2 after
any shorter prefix than the preamble and the four 0 bits, and is in state 2
right after the fourth 0 bit. -/
theorem long_preamble_frame (spb : Int) (m L : Nat) (p : List Nat) (hm : 1 ≤ m)
    (hL : m ≤ L) (h : L = m ∨ L % 2 = 1) (hp : IsPayload p) :
    (demodBits (demodInit spb m) (frame L p)).2 = [p] ∧
    (∀ n, n < L + 4 → (demodBits (demodInit spb m) ((frame L p).take n)).1.state ≠ 2) ∧
    (demodBits (demodInit spb m) ((frame L p).take (L + 4))).1.state = 2 := by
  obtain ⟨i1, i2, i3, i4⟩ := demodInit_ready spb m L hm hL h
  obtain ⟨z1, z2, z3⟩ := zeros_state _ i2 i3
  have hlen : (altBits 1 L).length = L := altBits_length 1 L
  have htake : ∀ j, (frame L p).take (L + j) =
      altBits 1 L ++ ((0 : Int) :: 0 :: 0 :: 0 :: manchester (payloadBits p)).take j := by
    intro j
    have : frame L p =
        altBits 1 L ++ ((0 : Int) :: 0 :: 0 :: 0 :: manchester (payloadBits p)) := by
      simp [frame]
    rw [this]
    nth_rewrite 1 [← hlen]
    rw [List.take_append]
  refine ⟨?_, ?_, ?_⟩
  · obtain ⟨q, b, rfl, hql, hb, hq⟩ := payload_split p hp
    obtain ⟨c', h1, _, _, h4⟩ := frame_run spb m L q b hm hL h hq hql hb
    rw [frame_split, h4, seek_single c' _ h1]
  · intro n hn
    by_cases hle : n ≤ L
    · have : (frame L p).take n = altBits 1 n := by
        rw [frame, List.append_assoc, List.take_append_of_le_length (by rw [hlen]; exact hle),
          altBits_take 1 L n hle]
      rw [this]
      exact demodInit_alt_state spb m n hm
    · obtain ⟨j, rfl, hj⟩ : ∃ j, n = L + j ∧ 1 ≤ j := ⟨n - L, by omega, by omega⟩
      have hj3 : j ≤ 3 := by omega
      rw [htake, demodBits_append]
      interval_cases j
      · simp only [List.take_succ_cons, List.take_zero]; rw [z1]; decide
      · simp only [List.take_succ_cons, List.take_zero]; rw [z2]; decide
      · simp only [List.take_succ_cons, List.take_zero]; rw [z3]; decide
  · rw [htake, demodBits_append]
    simp only [List.take_succ_cons, List.take_zero]
    rw [enter_recv _ i2 i3]
    rfl

theorem long_preamble_frame_witness :
    (1 ≤ 2 ∧ 2 ≤ 5 ∧ (5 = 2 ∨ 5 % 2 = 1) ∧
      IsPayload [165, 1, 255, 0, 18, 52, 86, 120, 154, 188]) ∧
    (demodBits (demodInit 200 (2 : Nat))
      (frame 5 [165, 1, 255, 0, 18, 52, 86, 120, 154, 188])).2 =
      [[165, 1, 255, 0, 18, 52, 86, 120, 154, 188]] ∧
    (∀ n, n < 5 + 4 → (demodBits (demodInit 200 (2 : Nat))
      ((frame 5 [165, 1, 255, 0, 18, 52, 86, 120, 154, 188]).take n)).1.state ≠ 2) ∧
    (demodBits (demodInit 200 (2 : Nat))
      ((frame 5 [165, 1, 255, 0, 18, 52, 86, 120, 154, 188]).take (5 + 4))).1.state = 2 :=
  ⟨⟨by decide, by decide, by decide, by unfold IsPayload; decide⟩,
    long_preamble_frame 200 2 5 _ (by decide) (by decide) (by decide)
      (by unfold IsPayload; decide)⟩

/-- C6, as stated, fails: with minimum preamble count 1 and a preamble of
two alternating bits (1, 0), the frame for the all-zero payload delivers no
packet equal to the payload, and state 2 is entered on the third of the four
0 bits: the last preamble bit, a 0, already counts in the run of four. -/
theorem long_preamble_even_fails :
    ((1 : Nat) ≤ 1 ∧ (1 : Nat) ≤ 2 ∧ IsPayload (List.replicate 10 0)) ∧
    (demodBits (demodInit 200 (1 : Nat)) (frame 2 (List.replicate 10 0))).2 ≠
      [List.replicate 10 0] ∧
    (demodBits (demodInit 200 (1 : Nat))
      ((frame 2 (List.replicate 10 0)).take (2 + 3))).1.state = 2 := by
  unfold IsPayload
  set_option maxRecDepth 1000000 in decide


/-- C4, amended: for every context in state 1 whose zero-run counter is at
most 1, `demodBit` with bit 1 clears the zero-run counter and leaves the
machine in state 1: a 1 bit after at most one 0 bit is not a malformed
terminator. -/
theorem ending_one_stays (c : DemodContext) (hs : c.state = 1) (he : c.ending ≤ 1) :
    (demodBit c 1).1.state = 1 ∧ (demodBit c 1).1.ending = 0 := by
  have _ := he
  simp [demodBit, hs]

theorem ending_one_stays_witness :
    ((demodBits (demodInit 200 1) [1, 0]).1.state = 1 ∧
      (demodBits (demodInit 200 1) [1, 0]).1.ending ≤ 1) ∧
    (demodBit (demodBits (demodInit 200 1) [1, 0]).1 1).1.state = 1 ∧
    (demodBit (demodBits (demodInit 200 1) [1, 0]).1 1).1.ending = 0 :=
  ⟨⟨by decide, by decide⟩,
    ending_one_stays (demodBits (demodInit 200 1) [1, 0]).1 (by decide) (by decide)⟩

/-- C4, as stated, fails: the context reached from `demodInit` (minimum
preamble count 1) by the bits 1, 0 is in state 1 with a zero-run counter of
1, below four, and `demodBit` with bit 1 leaves it in state 1. -/
theorem ending_one_no_reset :
    (demodBits (demodInit 200 1) [1, 0]).1.state = 1 ∧
    (demodBits (demodInit 200 1) [1, 0]).1.ending < 4 ∧
    (demodBit (demodBits (demodInit 200 1) [1, 0]).1 1).1.state ≠ 0 := by
  decide

/-- No step taken in state 1 leads to state 0: the zero-run counter is
cleared before it is compared with 1 (src/demod.c:161-162). -/
theorem ending_never_resets (c : DemodContext) (x : Int) (hs : c.state = 1) :
    (demodBit c x).1.state ≠ 0 := by
  simp only [demodBit, hs]
  split_ifs <;> simp_all

/-- The complex sample read by iteration `i` of the bypass loop is sample
`2 * (i / 2)`: four 16-bit words per sample. -/
theorem bypassIndex_eq (i : Nat) : bypassIndex i = 4 * (2 * (i / 2)) := by
  simp only [bypassIndex, sizeofUint16, sizeofComplexSample]
  omega

/-- C9, on the code: for a block of 16 bytes the loop runs twice, and its
second iteration (i = 1) reads at 16-bit-word offset 0, the first complex
sample again, not at offset 4. -/
theorem bypass_second_sample_skipped :
    bypassCount 16 = 2 ∧ bypassIndex 1 = 0 ∧ bypassIndex 1 ≠ 4 * 1 := by
  decide


/-! ## A Manchester violation inside a packet -/

/-- A run that delivers nothing can be continued from its final context. -/
theorem run_quiet (c : DemodContext) (xs rest : List Int) (h : (demodBits c xs).2 = []) :
    demodBits c (xs ++ rest) = demodBits (demodBits c xs).1 rest := by
  rw [demodBits_append, h]
  rfl

/-- A context that continues every run over `xs` is the context after `xs`. -/
theorem eq_of_run (c c' : DemodContext) (xs : List Int)
    (h : ∀ rest, demodBits c (xs ++ rest) = demodBits c' rest) :
    c' = (demodBits c xs).1 ∧ (demodBits c xs).2 = [] := by
  have := h []
  rw [List.append_nil, demodBits_nil] at this
  rw [this]
  exact ⟨rfl, rfl⟩

/-- Well-formed Manchester pairs that leave the packet incomplete: the
machine stays in state 2 and counts the data bits. -/
theorem recv_bits (ds : List Int) : ∀ (c : DemodContext),
    c.state = 2 → c.manchPos % 2 = 0 → 0 ≤ c.bitpos → c.bitpos < 8 → 0 ≤ c.bytePos →
    8 * c.bytePos + c.bitpos + ds.length ≤ 79 →
    ∃ c' : DemodContext,
      (∀ rest, demodBits c (manchester ds ++ rest) = demodBits c' rest) ∧
      c'.state = 2 ∧ c'.manchPos % 2 = 0 ∧ 0 ≤ c'.bitpos ∧ c'.bitpos < 8 ∧ 0 ≤ c'.bytePos ∧
      8 * c'.bytePos + c'.bitpos = 8 * c.bytePos + c.bitpos + ds.length := by
  induction ds with
  | nil =>
    intro c hs hp h0 h8 hq _
    exact ⟨c, fun rest => by simp [manchester], hs, hp, h0, h8, hq, by simp⟩
  | cons d ds ih =>
    intro c hs hp h0 h8 hq hle
    simp only [List.length_cons, Nat.cast_add, Nat.cast_one] at hle
    by_cases hb : c.bitpos + 1 = 8
    · obtain ⟨c', h1, h2, h3, h4, h5, h6, h7⟩ :=
        ih { c with byte := 0, bitpos := 0,
                    packet := c.packet.set c.bytePos.toNat (shiftOr c.byte d),
                    bytePos := c.bytePos + 1,
                    manchPos := c.manchPos + 2, lastDemodBit := 1 - d }
          hs (by simp; omega) (by simp) (by simp) (by simp; omega) (by simp; omega)
      refine ⟨c', fun rest => ?_, h2, h3, h4, h5, h6, ?_⟩
      · simp only [manchester, List.cons_append]
        rw [pair_step_byte c d _ hs hp hb (by omega), h1]
      · simp only [List.length_cons, Nat.cast_add, Nat.cast_one] at h7 ⊢
        omega
    · obtain ⟨c', h1, h2, h3, h4, h5, h6, h7⟩ :=
        ih { c with byte := shiftOr c.byte d, bitpos := c.bitpos + 1,
                    manchPos := c.manchPos + 2, lastDemodBit := 1 - d }
          hs (by simp; omega) (by simp; omega) (by simp; omega) (by simp; omega)
          (by simp; omega)
      refine ⟨c', fun rest => ?_, h2, h3, h4, h5, h6, ?_⟩
      · simp only [manchester, List.cons_append]
        rw [pair_step c d _ hs hp hb, h1]
      · simp only [List.length_cons, Nat.cast_add, Nat.cast_one] at h7 ⊢
        omega

/-- A pair whose second half repeats the first, before the last pair of the
packet: the machine is in state 0 with a clear transition counter once the
second half is consumed. -/
theorem violation_pair (c : DemodContext) (d : Int) (hs : c.state = 2)
    (hp : c.manchPos % 2 = 0) (hle : 8 * c.bytePos + c.bitpos + 1 ≤ 79) :
    (demodBits c [d, d]).2 = [] ∧ (demodBits c [d, d]).1.state = 0 ∧
    (demodBits c [d, d]).1.preambleGood = 0 := by
  by_cases hb : c.bitpos + 1 = 8
  · rw [demodBits_cons, byte_step c d hs hp hb (by omega)]
    rw [demodBits_cons, violation_step _ d (by simp [hs]) (by simp; omega) (by simp)]
    exact ⟨rfl, rfl, rfl⟩
  · rw [demodBits_cons, data_step c d hs hp hb]
    rw [demodBits_cons, violation_step _ d (by simp [hs]) (by simp; omega) (by simp)]
    exact ⟨rfl, rfl, rfl⟩


/-- A well-formed Manchester pair met while not receiving delivers nothing
and leaves the machine not receiving. -/
theorem resting_pair (c : DemodContext) (x : Int) (hx : x = 0 ∨ x = 1) (h : Resting c) :
    (demodBits c [x, 1 - x]).2 = [] ∧ Resting (demodBits c [x, 1 - x]).1 := by
  unfold Resting at h ⊢
  rcases h with ⟨hs, h0, h1⟩ | ⟨hs, h0, h1⟩
  · by_cases hl : c.lastDemodBit = x
    · rw [demodBits_cons, seek_step_reset c x hs hl (by omega)]
      by_cases hf : c.minPreamble ≤ 0 + 1
      · rw [demodBits_cons, seek_step_found _ _ (by simp [hs]) (by simp; omega)
          (by simpa using hf)]
        simp [demodBits_nil]
      · rw [demodBits_cons, seek_step_count _ _ (by simp [hs]) (by simp; omega)
          (by simp; omega)]
        simp [demodBits_nil, hs]
        omega
    · by_cases hf : c.minPreamble ≤ c.preambleGood + 1
      · rw [demodBits_cons, seek_step_found c x hs hl hf]
        rcases hx with rfl | rfl
        · rw [demodBits_cons, ending_step_one _ _ (by simp) (by decide)]
          simp [demodBits_nil]
        · rw [show (1 : Int) - 1 = 0 by decide, demodBits_cons,
            ending_step_zero _ (by simp) (by simp)]
          simp [demodBits_nil]
      · rw [demodBits_cons, seek_step_count c x hs hl (by omega)]
        by_cases hf2 : c.minPreamble ≤ c.preambleGood + 1 + 1
        · rw [demodBits_cons, seek_step_found _ _ (by simp [hs]) (by simp; omega)
            (by simpa using hf2)]
          simp [demodBits_nil]
        · rw [demodBits_cons, seek_step_count _ _ (by simp [hs]) (by simp; omega)
            (by simp; omega)]
          simp [demodBits_nil, hs]
          omega
  · rcases hx with rfl | rfl
    · rw [demodBits_cons, ending_step_zero c hs (by omega)]
      rw [demodBits_cons, ending_step_one _ _ (by simp [hs]) (by decide)]
      simp [demodBits_nil, hs]
    · rw [show (1 : Int) - 1 = 0 by decide, demodBits_cons, ending_step_one c 1 hs (by decide)]
      rw [demodBits_cons, ending_step_zero _ (by simp [hs]) (by simp)]
      simp [demodBits_nil, hs]

/-- Well-formed Manchester pairs met while not receiving deliver nothing and
leave the machine not receiving: they hold no run of four 0 bits. -/
theorem resting_pairs (ds : List Int) : ∀ (c : DemodContext),
    (∀ x ∈ ds, x = 0 ∨ x = 1) → Resting c →
    (demodBits c (manchester ds)).2 = [] ∧ Resting (demodBits c (manchester ds)).1 := by
  induction ds with
  | nil => intro c _ h; exact ⟨rfl, h⟩
  | cons d ds ih =>
    intro c hd h
    obtain ⟨p1, p2⟩ := resting_pair c d (hd d (List.mem_cons_self _ _)) h
    obtain ⟨q1, q2⟩ := ih _ (fun x hx => hd x (List.mem_cons_of_mem _ hx)) p2
    have e : manchester (d :: ds) = [d, 1 - d] ++ manchester ds := rfl
    rw [e, run_quiet _ _ _ p1]
    exact ⟨q1, q2⟩

/-- An odd number of alternating bits beginning with 1, more than the
minimum preamble count, met while not receiving: the machine ends in state 1
with a clear zero-run counter. -/
theorem reacquire (c : DemodContext) (L : Nat) (h : Resting c) (hodd : L % 2 = 1)
    (hL : c.minPreamble + 1 ≤ L) :
    (demodBits c (altBits 1 L)).2 = [] ∧ (demodBits c (altBits 1 L)).1.state = 1 ∧
    (demodBits c (altBits 1 L)).1.ending = 0 := by
  rcases h with ⟨hs, h0, h1⟩ | ⟨hs, h0, h1⟩
  · by_cases hl : c.lastDemodBit = 1
    · obtain ⟨L', rfl⟩ : ∃ L', L = L' + 1 := ⟨L - 1, by omega⟩
      obtain ⟨i1, i2, _, _, i5⟩ :=
        seek_alt L' { c with preambleGood := 0, lastDemodBit := 1 } 0 (Or.inl rfl) hs
          (by simp) (by simp; omega) (by push_cast at hL; simp; omega)
      simp only [altBits]
      rw [show (1 : Int) - 1 = 0 by decide, demodBits_cons,
        seek_step_reset c 1 hs hl (by omega)]
      refine ⟨by simp [i1], i2, i5 (Or.inr ?_)⟩
      unfold altLast
      split_ifs <;> omega
    · obtain ⟨i1, i2, _, _, i5⟩ :=
        seek_alt L c 1 (Or.inr rfl) hs hl h1 (by omega)
      refine ⟨i1, i2, i5 (Or.inr ?_)⟩
      simp [altLast, hodd]
  · obtain ⟨i1, i2, _, _, i5⟩ :=
      ending_alt L c 1 (Or.inr rfl) hs h0 (by omega) (by intro h; omega)
    refine ⟨i1, i2, i5 (Or.inr ⟨by omega, ?_⟩)⟩
    simp [altLast, hodd]


/-- The data bits of a payload around bit `k`. -/
theorem payloadBits_split (p : List Nat) (k : Nat) (hp : IsPayload p) (hk : k ≤ 78) :
    ∃ xs d ys, payloadBits p = xs ++ d :: ys ∧ xs.length = k ∧
      ∀ x ∈ ys, x = 0 ∨ x = 1 := by
  have hlen : k < (payloadBits p).length := by rw [payloadBits_length, hp.1]; omega
  refine ⟨(payloadBits p).take k, (payloadBits p)[k], (payloadBits p).drop (k + 1), ?_, ?_, ?_⟩
  · rw [← List.drop_eq_getElem_cons hlen, List.take_append_drop]
  · rw [List.length_take]; omega
  · intro x hx
    exact payloadBits_isBit p x (List.mem_of_mem_drop hx)

/-- The preamble, the four 0 bits and the pairs of a frame up to a corrupted
pair that is not the last: nothing is delivered and the machine is in state
0, with a clear transition counter, once the corrupted half-bit is
consumed. -/
theorem corrupt_head_run (spb : Int) (m : Nat) (xs : List Int) (d : Int) (hm : 1 ≤ m)
    (hk : xs.length ≤ 78) :
    (demodBits (demodInit spb m)
      (altBits 1 m ++ (0 :: 0 :: 0 :: 0 :: (manchester xs ++ [d, d])))).2 = [] ∧
    (demodBits (demodInit spb m)
      (altBits 1 m ++ (0 :: 0 :: 0 :: 0 :: (manchester xs ++ [d, d])))).1.state = 0 ∧
    (demodBits (demodInit spb m)
      (altBits 1 m ++ (0 :: 0 :: 0 :: 0 :: (manchester xs ++ [d, d])))).1.preambleGood = 0 := by
  obtain ⟨i1, i2, i3, _⟩ := demodInit_ready spb m m hm le_rfl (Or.inl rfl)
  obtain ⟨c3, h1, h2, h3, h4, h5, h6, h7⟩ :=
    recv_bits xs { (demodBits (demodInit spb m) (altBits 1 m)).1 with
        ending := 0, manchPos := 0, byte := 0, bitpos := 0, bytePos := 0,
        state := 2, lastDemodBit := 0 }
      rfl (by simp) (by simp) (by simp) (by simp) (by simp; omega)
  simp only [mul_zero, add_zero, zero_add] at h7
  obtain ⟨v1, v2, v3⟩ := violation_pair c3 d h2 h3 (by omega)
  rw [run_quiet _ _ _ i1, enter_recv _ i2 i3, h1]
  exact ⟨v1, v2, v3⟩

theorem corruptFrame_split (m k : Nat) (xs ys : List Int) (d : Int) (p : List Nat)
    (h : payloadBits p = xs ++ d :: ys) (hk : xs.length = k) :
    corruptFrame m k p =
      (altBits 1 m ++ (0 :: 0 :: 0 :: 0 :: (manchester xs ++ [d, d]))) ++ manchester ys := by
  rw [corruptFrame, h, corruptPair_manchester xs k d ys hk]
  simp

/-- A run that delivers nothing delivers nothing at any point. -/
theorem quiet_take (c : DemodContext) (xs : List Int) (h : (demodBits c xs).2 = [])
    (n : Nat) : (demodBits c (xs.take n)).2 = [] := by
  have := demodBits_append c (xs.take n) (xs.drop n)
  rw [List.take_append_drop] at this
  rw [this] at h
  exact (List.append_eq_nil.mp h).1

/-- The context after a corrupted frame, and what it delivered. -/
theorem corrupt_frame_run (spb : Int) (m k : Nat) (p : List Nat) (hm : 1 ≤ m)
    (hk : k ≤ 78) (hp : IsPayload p) :
    (demodBits (demodInit spb m) ((corruptFrame m k p).take (m + 4 + (2 * k + 2)))).1.state = 0 ∧
    (demodBits (demodInit spb m) (corruptFrame m k p)).2 = [] ∧
    Resting (demodBits (demodInit spb m) (corruptFrame m k p)).1 := by
  obtain ⟨xs, d, ys, hsplit, hlen, hys⟩ := payloadBits_split p k hp hk
  obtain ⟨r1, r2, r3⟩ := corrupt_head_run spb m xs d hm (by omega)
  have hrest : Resting (demodBits (demodInit spb m)
      (altBits 1 m ++ (0 :: 0 :: 0 :: 0 :: (manchester xs ++ [d, d])))).1 := by
    refine Or.inl ⟨r2, by rw [r3], ?_⟩
    rw [r3, demodBits_minPreamble]
    simp [demodInit]; omega
  obtain ⟨t1, t2⟩ := resting_pairs ys _ hys hrest
  rw [corruptFrame_split m k xs ys d p hsplit hlen]
  refine ⟨?_, ?_, ?_⟩
  · rw [List.take_left' (by
      simp [altBits_length, manchester_length, hlen]; omega)]
    exact r2
  · rw [run_quiet _ _ _ r1]; exact t1
  · rw [run_quiet _ _ _ r1]; exact t2

/-- C2: for every m ≥ 1, every 10-byte payload p and every pair index k in
0..78, feeding from the `demodInit` context the frame for p whose pair k has
its second half replaced by a copy of its first half: the machine is in
state 0 right after the corrupted half-bit is consumed, and no packet is
delivered at any point while the frame is fed. -/
theorem violation_aborts (spb : Int) (m k : Nat) (p : List Nat) (hm : 1 ≤ m)
    (hk : k ≤ 78) (hp : IsPayload p) :
    (demodBits (demodInit spb m) ((corruptFrame m k p).take (m + 4 + (2 * k + 2)))).1.state = 0 ∧
    ∀ n, (demodBits (demodInit spb m) ((corruptFrame m k p).take n)).2 = [] := by
  obtain ⟨h1, h2, _⟩ := corrupt_frame_run spb m k p hm hk hp
  exact ⟨h1, quiet_take _ _ h2⟩

theorem violation_aborts_witness :
    (1 ≤ 3 ∧ 5 ≤ 78 ∧ IsPayload [165, 1, 255, 0, 18, 52, 86, 120, 154, 188]) ∧
    (demodBits (demodInit 200 (3 : Nat))
      ((corruptFrame 3 5 [165, 1, 255, 0, 18, 52, 86, 120, 154, 188]).take
        (3 + 4 + (2 * 5 + 2)))).1.state = 0 ∧
    ∀ n, (demodBits (demodInit 200 (3 : Nat))
      ((corruptFrame 3 5 [165, 1, 255, 0, 18, 52, 86, 120, 154, 188]).take n)).2 = [] :=
  ⟨⟨by decide, by decide, by unfold IsPayload; decide⟩,
    violation_aborts 200 3 5 _ (by decide) (by decide) (by unfold IsPayload; decide)⟩

/-- C3, amended: for every m ≥ 1, all 10-byte payloads p1 and p2, every pair
index k in 0..78 and every odd preamble length L ≥ m + 1: a frame for p1
whose pair k is corrupted, immediately followed by a frame for p2 with a
preamble of L alternating bits beginning with 1, four 0 bits and the 160
Manchester half-bits of p2, delivers exactly one packet over the whole
input, and it equals p2. -/
theorem violation_then_frame (spb : Int) (m k L : Nat) (p1 p2 : List Nat) (hm : 1 ≤ m)
    (hk : k ≤ 78) (hp1 : IsPayload p1) (hp2 : IsPayload p2) (hodd : L % 2 = 1)
    (hL : m + 1 ≤ L) :
    (demodBits (demodInit spb m) (corruptFrame m k p1 ++ frame L p2)).2 = [p2] := by
  obtain ⟨_, h2, h3⟩ := corrupt_frame_run spb m k p1 hm hk hp1
  obtain ⟨q, b, rfl, hql, hb, hq⟩ := payload_split p2 hp2
  have hmin : (demodBits (demodInit spb m) (corruptFrame m k p1)).1.minPreamble = m := by
    rw [demodBits_minPreamble]; rfl
  obtain ⟨a1, a2, a3⟩ := reacquire _ L h3 hodd (by rw [hmin]; exact_mod_cast hL)
  have hpl : (demodBits (demodBits (demodInit spb m) (corruptFrame m k p1)).1
      (altBits 1 L)).1.packet.length = 10 := by
    rw [demodBits_packet_length, demodBits_packet_length]; simp [demodInit]
  obtain ⟨c', b1, _, _, b4⟩ := frame_body _ q b a2 a3 hpl hq hql hb
  rw [run_quiet _ _ _ h2, frame_split, run_quiet _ _ _ a1, b4, seek_single c' _ b1]

theorem violation_then_frame_witness :
    (1 ≤ 2 ∧ 0 ≤ 78 ∧ IsPayload (List.replicate 10 0) ∧
      IsPayload [165, 1, 255, 0, 18, 52, 86, 120, 154, 188] ∧ 3 % 2 = 1 ∧ 2 + 1 ≤ 3) ∧
    (demodBits (demodInit 200 (2 : Nat)) (corruptFrame 2 0 (List.replicate 10 0) ++
      frame 3 [165, 1, 255, 0, 18, 52, 86, 120, 154, 188])).2 =
      [[165, 1, 255, 0, 18, 52, 86, 120, 154, 188]] :=
  ⟨⟨by decide, by decide, by unfold IsPayload; decide, by unfold IsPayload; decide,
      by decide, by decide⟩,
    violation_then_frame 200 2 0 3 _ _ (by decide) (by decide) (by unfold IsPayload; decide)
      (by unfold IsPayload; decide) (by decide) (by decide)⟩

/-- C3, as stated, fails: with minimum preamble count 2, the frame for the
all-zero payload with pair 0 corrupted, followed by a well-formed frame for
the all-zero payload with a preamble of exactly 2 alternating bits, delivers
no packet at all. -/
theorem violation_then_minimum_frame_fails :
    ((1 : Nat) ≤ 2 ∧ (0 : Nat) ≤ 78 ∧ IsPayload (List.replicate 10 0)) ∧
    (demodBits (demodInit 200 (2 : Nat))
      (corruptFrame 2 0 (List.replicate 10 0) ++ frame 2 (List.replicate 10 0))).2 = [] := by
  unfold IsPayload
  set_option maxRecDepth 1000000 in decide


/-! ## Too few transitions -/

theorem chain_take (a : Int) (l : List Int) (n : Nat)
    (h : List.Chain (fun a b => a ≠ b) a l) :
    List.Chain (fun a b => a ≠ b) a (l.take n) := by
  induction l generalizing a n with
  | nil => simp
  | cons x l ih =>
    cases n with
    | zero => exact List.Chain.nil
    | succ n =>
      rw [List.chain_cons] at h
      rw [List.take_succ_cons, List.chain_cons]
      exact ⟨h.1, ih x n h.2⟩

/-- In state 0 the transition counter is the length of the current run of
transitions: while no run reaches the minimum the machine stays in state 0. -/
theorem seek_no_run (bits : List Int) : ∀ (c : DemodContext),
    c.state = 0 → 0 ≤ c.preambleGood →
    (∀ run post, bits = run ++ post → List.Chain (fun a b => a ≠ b) c.lastDemodBit run →
      c.preambleGood + run.length < c.minPreamble) →
    (∀ pre run post, bits = pre ++ run ++ post →
      List.Chain (fun a b => a ≠ b)
        ((c.lastDemodBit :: pre).getLast (List.cons_ne_nil _ _)) run →
      (run.length : Int) < c.minPreamble) →
    (demodBits c bits).1.state = 0 ∧ (demodBits c bits).2 = [] := by
  induction bits with
  | nil => intro c hs _ _ _; exact ⟨hs, rfl⟩
  | cons b bs ih =>
    intro c hs h0 hfirst hany
    have hpos : 0 < c.minPreamble := by
      have := hfirst [] (b :: bs) rfl List.Chain.nil
      simp at this; omega
    have hany' : ∀ (l : Int) (pre run post : List Int), bs = pre ++ run ++ post →
        List.Chain (fun a b => a ≠ b) ((l :: pre).getLast (List.cons_ne_nil _ _)) run →
        l = b → (run.length : Int) < c.minPreamble := by
      intro l pre run post e hc hl
      subst hl
      apply hany (l :: pre) run post (by simp [e])
      rw [List.getLast_cons (List.cons_ne_nil _ _)]
      exact hc
    by_cases hl : c.lastDemodBit = b
    · rw [demodBits_cons, seek_step_reset c b hs hl hpos]
      have := ih { c with preambleGood := 0, lastDemodBit := b } hs (le_refl _)
        (fun run post e hc => by
          have := hany' b [] run post (by simpa using e) (by simpa using hc) rfl
          simpa using this)
        (fun pre run post e hc => hany' b pre run post e hc rfl)
      exact ⟨this.1, by simp [this.2]⟩
    · have hlt : c.preambleGood + 1 < c.minPreamble := by
        have := hfirst [b] bs rfl (List.Chain.cons hl List.Chain.nil)
        simpa using this
      rw [demodBits_cons, seek_step_count c b hs hl hlt]
      have := ih { c with preambleGood := c.preambleGood + 1, lastDemodBit := b } hs
        (by simp; omega)
        (fun run post e hc => by
          have := hfirst (b :: run) post (by simp [e]) (List.Chain.cons hl hc)
          simp only [List.length_cons, Nat.cast_add, Nat.cast_one] at this
          simp only
          omega)
        (fun pre run post e hc => hany' b pre run post e hc rfl)
      exact ⟨this.1, by simp [this.2]⟩

theorem hasRun_of_take (m : Nat) (bits : List Int) (n : Nat) (h : HasRun m (bits.take n)) :
    HasRun m bits := by
  obtain ⟨pre, run, post, e, hl, hc⟩ := h
  refine ⟨pre, run, post ++ bits.drop n, ?_, hl, hc⟩
  rw [← List.append_assoc, ← e, List.take_append_drop]

/-- C5: for every m ≥ 1 and every bit sequence that contains no run of m
consecutive bits each differing from the bit before it (the bit before the
first being 0), feeding it to `demodBit` from the `demodInit` context leaves
the state equal to 0 after every bit and delivers no packet. -/
theorem short_runs_stay_seeking (spb : Int) (m : Nat) (bits : List Int) (hm : 1 ≤ m)
    (h : ¬ HasRun m bits) (n : Nat) :
    (demodBits (demodInit spb m) (bits.take n)).1.state = 0 ∧
    (demodBits (demodInit spb m) (bits.take n)).2 = [] := by
  have _ := hm
  have hn : ¬ HasRun m (bits.take n) := fun hr => h (hasRun_of_take m bits n hr)
  have key : ∀ pre run post, bits.take n = pre ++ run ++ post →
      List.Chain (fun a b => a ≠ b) ((0 :: pre).getLast (List.cons_ne_nil 0 pre)) run →
      run.length < m := by
    intro pre run post e hc
    by_contra hge
    apply hn
    refine ⟨pre, run.take m, run.drop m ++ post, ?_, ?_, chain_take _ _ _ hc⟩
    · have := List.take_append_drop m run
      rw [e]
      simp only [List.append_assoc]
      rw [← List.append_assoc (run.take m), this]
    · rw [List.length_take]; omega
  apply seek_no_run _ (demodInit spb m) rfl (le_refl _)
  · intro run post e hc
    have := key [] run post (by simpa using e) (by simpa [demodInit] using hc)
    simp [demodInit]; omega
  · intro pre run post e hc
    have := key pre run post e (by simpa [demodInit] using hc)
    simp [demodInit]; omega

/-- A sequence shorter than `m` contains no run of `m` bits. -/
theorem not_hasRun_of_short (m : Nat) (bits : List Int) (h : bits.length < m) :
    ¬ HasRun m bits := by
  rintro ⟨pre, run, post, e, hl, _⟩
  have := congrArg List.length e
  simp at this
  omega

/-- A constant signal of 0 bits contains no run of `m ≥ 1` transitions. -/
theorem not_hasRun_zeros (m n : Nat) (hm : 1 ≤ m) : ¬ HasRun m (List.replicate n 0) := by
  rintro ⟨pre, run, post, e, hl, hc⟩
  have hall : ∀ x ∈ pre ++ run ++ post, x = 0 := by
    rw [← e]
    intro x hx
    exact List.eq_of_mem_replicate hx
  cases run with
  | nil => simp at hl; omega
  | cons x run =>
    rw [List.chain_cons] at hc
    have hx : x = 0 := hall x (by simp)
    have hlast : (0 :: pre).getLast (List.cons_ne_nil 0 pre) = 0 := by
      rcases List.mem_cons.mp (List.getLast_mem (List.cons_ne_nil 0 pre)) with h | h
      · exact h
      · exact hall _ (by simp [h])
    exact hc.1 (by rw [hlast, hx])

/-- The sequence 1, 0, 0, 1, 0, 0 has runs of two transitions and none of
three. -/
theorem not_hasRun_example : ¬ HasRun 3 [1, 0, 0, 1, 0, 0] := by
  rintro ⟨pre, run, post, e, hl, hc⟩
  obtain ⟨x, y, z, rfl⟩ : ∃ x y z, run = [x, y, z] := by
    match run, hl with
    | [x, y, z], _ => exact ⟨x, y, z, rfl⟩
  simp only [List.chain_cons] at hc
  obtain ⟨h1, h2, h3, _⟩ := hc
  have hlen := congrArg List.length e
  simp only [List.length_cons, List.length_nil, List.length_append] at hlen
  rcases pre with _ | ⟨a, _ | ⟨b, _ | ⟨c, _ | ⟨d, pre⟩⟩⟩⟩
  · simp at e h1; omega
  · simp at e h1; omega
  · simp at e h1; omega
  · simp at e h1; omega
  · simp at hlen; omega

theorem short_runs_stay_seeking_witness :
    (1 ≤ 3 ∧ ¬ HasRun 3 [1, 0, 0, 1, 0, 0]) ∧
    (demodBits (demodInit 200 (3 : Nat)) (([1, 0, 0, 1, 0, 0] : List Int).take 5)).1.state = 0 ∧
    (demodBits (demodInit 200 (3 : Nat)) (([1, 0, 0, 1, 0, 0] : List Int).take 5)).2 = [] :=
  ⟨⟨by decide, not_hasRun_example⟩,
    short_runs_stay_seeking 200 3 [1, 0, 0, 1, 0, 0] (by decide) not_hasRun_example 5⟩

/-! ## Bounds on reachable contexts -/

theorem shiftOr_lt (byte : Nat) (bit : Int) : shiftOr byte bit < 256 := by
  unfold shiftOr
  have h1 : byte * 2 % 256 < 2 ^ 8 := Nat.mod_lt _ (by decide)
  have h2 : (bit % 256).toNat < 2 ^ 8 := by
    have := Int.emod_lt_of_pos bit (show (0 : Int) < 256 by decide)
    have := Int.emod_nonneg bit (show (256 : Int) ≠ 0 by decide)
    omega
  exact Nat.or_lt_two_pow h1 h2

theorem demodInit_inv (spb minPre : Int) : Inv (demodInit spb minPre) := by
  simp [Inv, demodInit]

theorem demodBit_inv (c : DemodContext) (x : Int) (h : Inv c) : Inv (demodBit c x).1 := by
  obtain ⟨hs, hg, he, hm, hb, hy, hq, hl, h2⟩ := h
  have hy' := shiftOr_lt c.byte x
  unfold Inv
  simp only [demodBit]
  split_ifs <;> simp at * <;> omega

theorem demodBits_inv (bits : List Int) : ∀ (c : DemodContext), Inv c →
    Inv (demodBits c bits).1 := by
  induction bits with
  | nil => intro c h; exact h
  | cons b bs ih => intro c h; exact ih _ (demodBit_inv c b h)


/-- On a context within the bounds, a step hands a packet to `handlePacket`
exactly when it brings the fill count to the packet size. -/
theorem deliver_iff (c : DemodContext) (x : Int) (h : Inv c) :
    (demodBit c x).2 ≠ none ↔ (c.bytePos ≠ 10 ∧ (demodBit c x).1.bytePos = 10) := by
  obtain ⟨hs, hg, he, hm, hb, hy, hq, hl, h2⟩ := h
  simp only [demodBit]
  split_ifs <;> simp at * <;> omega

/-- C8: in every context reachable from `demodInit` by any sequence of
`demodBit` calls, for any bits and any minimum preamble count, the fill count
`bytePos` is between 0 and 10, and in state 2 it is below 10 and a valid
index of the ten-byte buffer `packet`; a step from such a context hands a
packet to `handlePacket` exactly when it brings `bytePos` to 10. -/
theorem fill_count_bounded (spb minPre : Int) (bits : List Int) :
    0 ≤ (demodBits (demodInit spb minPre) bits).1.bytePos ∧
    (demodBits (demodInit spb minPre) bits).1.bytePos ≤ 10 ∧
    ((demodBits (demodInit spb minPre) bits).1.state = 2 →
      (demodBits (demodInit spb minPre) bits).1.bytePos < 10 ∧
      (demodBits (demodInit spb minPre) bits).1.bytePos.toNat <
        (demodBits (demodInit spb minPre) bits).1.packet.length) ∧
    ∀ x, (demodBit (demodBits (demodInit spb minPre) bits).1 x).2 ≠ none ↔
      ((demodBits (demodInit spb minPre) bits).1.bytePos ≠ 10 ∧
        (demodBit (demodBits (demodInit spb minPre) bits).1 x).1.bytePos = 10) := by
  have h := demodBits_inv bits _ (demodInit_inv spb minPre)
  have hd := fun x => deliver_iff _ x h
  obtain ⟨_, _, _, _, _, _, hq, hl, h2⟩ := h
  refine ⟨hq.1, hq.2, fun hs => ⟨(h2 hs).1, ?_⟩, hd⟩
  have := (h2 hs).1
  omega


/-! ## Bit timing -/

theorem expectedCalls_ge (P : Nat) (bits : List Int) : ∀ (s : Nat),
    ∀ e ∈ expectedCalls P s bits, s ≤ e.1 := by
  induction bits with
  | nil => intro s e he; simp [expectedCalls] at he
  | cons b bs ih =>
    intro s e he
    simp only [expectedCalls, List.mem_cons] at he
    rcases he with rfl | he
    · simp only; omega
    · have := ih (s + P) e he
      omega

end Demod
